import Mathlib

/-!
Verification of the hex-wind aggregation core (`src/h3Utils.ts`,
`src/dataService.ts`).

Embedding choices:
* JS numbers are modelled as rationals `ℚ` (the pipeline only adds,
  compares and rounds; `Math.round` is round-half-up, `⌊q + 1/2⌋`).
* A JS `Map<string, V>` is modelled as an insertion-ordered association
  list `List (String × V)` with unique keys: `get` is the first (only)
  matching entry, updating mutates that entry in place, and `set` of a
  fresh key appends at the end — exactly the JS iteration-order
  semantics.
* The two external `h3-js` capabilities (`latLngToCell`,
  `cellToBoundary`) are parameters of the embedded functions: the code
  treats them as black boxes and so do we.
-/

namespace HexWind

/-- A point record (`Turbine` in `src/types.ts`). -/
structure Turbine where
  lon : ℚ
  lat : ℚ
  capacity_mw : ℚ
  manufacturer : String
  model : String
  project : String
  year : Option ℤ
  state : String
  hub_height : Option ℚ
  rotor_dia : Option ℚ
deriving DecidableEq, Repr

/-- The value type of the aggregation map: `{ total_mw, turbine_count }`. -/
structure HexData where
  total_mw : ℚ
  turbine_count : ℕ
deriving DecidableEq, Repr

/-- A JS `Map<string, HexData>`: insertion-ordered association list with
unique keys. -/
abbrev HexMap := List (String × HexData)

/-- JS `Math.round`: round half toward positive infinity. -/
def jsRound (q : ℚ) : ℤ := ⌊q + 1/2⌋

/-- `Math.round(q * 10) / 10`: round to one decimal place. -/
def roundTo1 (q : ℚ) : ℚ := (jsRound (q * 10) : ℚ) / 10

/-- `Map.get`: the first (hence only) entry with the given key. -/
def lookupAssoc (k : String) : HexMap → Option HexData
  | [] => none
  | (k₂, v) :: rest => if k₂ = k then some v else lookupAssoc k rest

/-- In-place mutation of the entry with the given key (the first match,
which is the only one since keys are unique). -/
def updateAssoc (k : String) (f : HexData → HexData) : HexMap → HexMap
  | [] => []
  | (k₂, v) :: rest =>
      if k₂ = k then (k₂, f v) :: rest else (k₂, v) :: updateAssoc k f rest

/-- One iteration of the `for (const turbine of turbines)` loop in
`generateH3Indices`: look the cell up; add capacity and bump the count if
present, otherwise insert a fresh aggregate at the end of the map. -/
def step (cellOf : Turbine → String) (m : HexMap) (t : Turbine) : HexMap :=
  match lookupAssoc (cellOf t) m with
  | some _ =>
      updateAssoc (cellOf t)
        (fun d => ⟨d.total_mw + t.capacity_mw, d.turbine_count + 1⟩) m
  | none => m ++ [(cellOf t, ⟨t.capacity_mw, 1⟩)]

/-- The aggregation loop of `generateH3Indices` before the rounding
post-pass. -/
def preAgg (cellOf : Turbine → String) (turbines : List Turbine) : HexMap :=
  turbines.foldl (step cellOf) []

/-- The `// Round total_mw for cleaner display` post-pass. -/
def roundPass (m : HexMap) : HexMap :=
  m.map (fun p => (p.1, ⟨roundTo1 p.2.total_mw, p.2.turbine_count⟩))

/-- `generateH3Indices` from `src/h3Utils.ts`, parameterized over the
external `latLngToCell` capability of `h3-js`. The source computes
`latLngToCell(turbine.lat, turbine.lon, resolution)` for each point. -/
def generateH3Indices (latLngToCell : ℚ → ℚ → ℕ → String)
    (turbines : List Turbine) (resolution : ℕ) : HexMap :=
  roundPass (preAgg (fun t => latLngToCell t.lat t.lon resolution) turbines)

/-- One emitted GeoJSON polygon feature. The source stores the ring as
`geometry.coordinates = [ring]` (a single-ring polygon); we keep the ring
itself. -/
structure GeoFeature where
  h3Index : String
  total_mw : ℚ
  turbine_count : ℕ
  ring : List (ℚ × ℚ)
deriving DecidableEq, Repr

/-- `h3ToGeoJSON` from `src/h3Utils.ts`, parameterized over the external
`cellToBoundary` capability, which returns `(lat, lng)` vertex pairs.
`coordinates.push(coordinates[0])` on an empty JS array pushes
`undefined`; we model `coordinates[0]` as `headD (0, 0)`, which agrees
with the source on every nonempty boundary (and H3 boundaries are never
empty). -/
def h3ToGeoJSON (cellToBoundary : String → List (ℚ × ℚ))
    (hexMap : HexMap) : List GeoFeature :=
  hexMap.map (fun p =>
    let boundary := cellToBoundary p.1
    let coordinates := boundary.map (fun v => (v.2, v.1))
    { h3Index := p.1
      total_mw := p.2.total_mw
      turbine_count := p.2.turbine_count
      ring := coordinates ++ [coordinates.headD (0, 0)] })

/-- `getMaxMW` from `src/h3Utils.ts`. -/
def getMaxMW (m : HexMap) : ℚ :=
  m.foldl (fun mx p => if p.2.total_mw > mx then p.2.total_mw else mx) 0

/-- The result record of `getTotalStats`. -/
structure TotalStats where
  count : ℕ
  totalMW : ℤ
deriving DecidableEq, Repr

/-- `getTotalStats` from `src/dataService.ts`:
`{ count: turbines.length, totalMW: Math.round(turbines.reduce((sum, t) => sum + t.capacity_mw, 0)) }`. -/
def getTotalStats (turbines : List Turbine) : TotalStats :=
  { count := turbines.length
    totalMW := jsRound (turbines.foldl (fun sum t => sum + t.capacity_mw) 0) }

/-- Sum of capacities of a point sequence (specification-side sum). -/
def capSum (ts : List Turbine) : ℚ := (ts.map Turbine.capacity_mw).sum

/-- Sum of member counts over all aggregates of a map. -/
def countSum (m : HexMap) : ℕ := (m.map (fun p => p.2.turbine_count)).sum

/-- Sum of total capacities over all aggregates of a map. -/
def mwSum (m : HexMap) : ℚ := (m.map (fun p => p.2.total_mw)).sum

/-- Keys of an association map. -/
def keysOf (m : HexMap) : List String := m.map Prod.fst

/-- Extensional equality of two aggregation maps: the same set of cell
identifiers and, for each identifier, the same aggregate value. -/
def EquivHexMap (a b : HexMap) : Prop :=
  ∀ k, lookupAssoc k a = lookupAssoc k b

/-- A turbine with the given coordinates and capacity and blank
metadata, used for concrete witnesses. -/
def mkTurbine (lat lon cap : ℚ) : Turbine :=
  { lon := lon, lat := lat, capacity_mw := cap, manufacturer := ""
    model := "", project := "", year := none, state := ""
    hub_height := none, rotor_dia := none }

/-- A concrete stand-in for `latLngToCell`: cells are integer-degree
lat/lon boxes tagged with the resolution. Any function works here since
the code treats the index function as a black box. -/
def cellEx (lat lon : ℚ) (res : ℕ) : String :=
  toString ((⌊lat⌋, ⌊lon⌋, res))

/-- The member points of cell `k`: the input points whose cell
identifier is `k`. -/
def membersIn (f : Turbine → String) (k : String) : List Turbine → List Turbine
  | [] => []
  | t :: ts => if f t = k then t :: membersIn f k ts else membersIn f k ts

/-! ### Lookup and update lemmas -/

theorem lookup_updateAssoc_self (k : String) (g : HexData → HexData) :
    ∀ m : HexMap, lookupAssoc k (updateAssoc k g m) = (lookupAssoc k m).map g
  | [] => rfl
  | (k₂, v) :: rest => by
      by_cases h : k₂ = k <;>
        simp [lookupAssoc, updateAssoc, h, lookup_updateAssoc_self k g rest]

theorem lookup_updateAssoc_ne {k k₂ : String} (g : HexData → HexData)
    (h : k₂ ≠ k) :
    ∀ m : HexMap, lookupAssoc k (updateAssoc k₂ g m) = lookupAssoc k m
  | [] => rfl
  | (k₃, v) :: rest => by
      by_cases h₃ : k₃ = k₂
      · subst h₃; simp [lookupAssoc, updateAssoc, h]
      · by_cases h₄ : k₃ = k <;>
          simp [lookupAssoc, updateAssoc, h₃, h₄, Ne.symm h,
            lookup_updateAssoc_ne g h rest]

theorem lookup_append_of_none {k : String} :
    ∀ {m : HexMap}, lookupAssoc k m = none →
      ∀ l : HexMap, lookupAssoc k (m ++ l) = lookupAssoc k l
  | [], _, l => rfl
  | (k₂, v) :: rest, h, l => by
      by_cases h₂ : k₂ = k
      · simp [lookupAssoc, h₂] at h
      · simp only [lookupAssoc, h₂, if_false] at h ⊢
        exact lookup_append_of_none h l

theorem lookup_step_ne {f : Turbine → String} {k : String} {t : Turbine}
    (h : f t ≠ k) (m : HexMap) :
    lookupAssoc k (step f m t) = lookupAssoc k m := by
  unfold step
  cases hl : lookupAssoc (f t) m with
  | some d => exact lookup_updateAssoc_ne _ h m
  | none =>
      cases hk : lookupAssoc k m with
      | some d =>
          clear hl
          induction m with
          | nil => simp [lookupAssoc] at hk
          | cons p rest ih =>
              obtain ⟨k₂, v⟩ := p
              by_cases h₂ : k₂ = k <;>
                simp_all [lookupAssoc]
      | none => rw [lookup_append_of_none hk]; simp [lookupAssoc, h]

theorem lookup_step_self_none {f : Turbine → String} {t : Turbine} {m : HexMap}
    (h : lookupAssoc (f t) m = none) :
    lookupAssoc (f t) (step f m t) = some ⟨t.capacity_mw, 1⟩ := by
  unfold step
  rw [h, lookup_append_of_none h]
  simp [lookupAssoc]

theorem lookup_step_self_some {f : Turbine → String} {t : Turbine} {m : HexMap}
    {d : HexData} (h : lookupAssoc (f t) m = some d) :
    lookupAssoc (f t) (step f m t) =
      some ⟨d.total_mw + t.capacity_mw, d.turbine_count + 1⟩ := by
  unfold step
  rw [h, lookup_updateAssoc_self, h]
  rfl

/-! ### Sum invariants of the aggregation loop -/

theorem countSum_cons (p : String × HexData) (m : HexMap) :
    countSum (p :: m) = p.2.turbine_count + countSum m := by
  simp [countSum]

theorem mwSum_cons (p : String × HexData) (m : HexMap) :
    mwSum (p :: m) = p.2.total_mw + mwSum m := by
  simp [mwSum]

theorem countSum_append (m l : HexMap) :
    countSum (m ++ l) = countSum m + countSum l := by
  simp [countSum]

theorem mwSum_append (m l : HexMap) :
    mwSum (m ++ l) = mwSum m + mwSum l := by
  simp [mwSum]

theorem countSum_updateAssoc_inc (k : String) (c : ℚ) :
    ∀ m : HexMap, lookupAssoc k m ≠ none →
      countSum (updateAssoc k
        (fun d => ⟨d.total_mw + c, d.turbine_count + 1⟩) m) = countSum m + 1
  | [], h => absurd rfl h
  | (k₂, v) :: rest, h => by
      by_cases h₂ : k₂ = k
      · simp [updateAssoc, countSum, h₂]; omega
      · simp only [lookupAssoc, h₂, if_false] at h
        simp only [updateAssoc, h₂, if_false]
        rw [countSum_cons, countSum_cons, countSum_updateAssoc_inc k c rest h]
        omega

theorem mwSum_updateAssoc_inc (k : String) (c : ℚ) :
    ∀ m : HexMap, lookupAssoc k m ≠ none →
      mwSum (updateAssoc k
        (fun d => ⟨d.total_mw + c, d.turbine_count + 1⟩) m) = mwSum m + c
  | [], h => absurd rfl h
  | (k₂, v) :: rest, h => by
      by_cases h₂ : k₂ = k
      · simp [updateAssoc, mwSum, h₂]; ring
      · simp only [lookupAssoc, h₂, if_false] at h
        simp only [updateAssoc, h₂, if_false]
        rw [mwSum_cons, mwSum_cons, mwSum_updateAssoc_inc k c rest h]
        ring

theorem countSum_step (f : Turbine → String) (m : HexMap) (t : Turbine) :
    countSum (step f m t) = countSum m + 1 := by
  unfold step
  cases hl : lookupAssoc (f t) m with
  | some d =>
      exact countSum_updateAssoc_inc (f t) t.capacity_mw m (by rw [hl]; simp)
  | none => simp [countSum_append, countSum]

theorem mwSum_step (f : Turbine → String) (m : HexMap) (t : Turbine) :
    mwSum (step f m t) = mwSum m + t.capacity_mw := by
  unfold step
  cases hl : lookupAssoc (f t) m with
  | some d =>
      exact mwSum_updateAssoc_inc (f t) t.capacity_mw m (by rw [hl]; simp)
  | none => simp [mwSum_append, mwSum]

theorem countSum_foldl (f : Turbine → String) :
    ∀ (ts : List Turbine) (m : HexMap),
      countSum (ts.foldl (step f) m) = countSum m + ts.length
  | [], m => by simp
  | t :: ts, m => by
      simp only [List.foldl_cons, List.length_cons]
      rw [countSum_foldl f ts (step f m t), countSum_step]
      omega

theorem mwSum_foldl (f : Turbine → String) :
    ∀ (ts : List Turbine) (m : HexMap),
      mwSum (ts.foldl (step f) m) = mwSum m + capSum ts
  | [], m => by simp [capSum]
  | t :: ts, m => by
      simp only [List.foldl_cons]
      rw [mwSum_foldl f ts (step f m t), mwSum_step]
      simp [capSum]
      ring

theorem countSum_roundPass (m : HexMap) : countSum (roundPass m) = countSum m := by
  simp only [countSum, roundPass, List.map_map]
  rfl

theorem length_roundPass (m : HexMap) : (roundPass m).length = m.length :=
  List.length_map _ _

theorem countSum_preAgg (f : Turbine → String) (ts : List Turbine) :
    countSum (preAgg f ts) = ts.length := by
  unfold preAgg
  rw [countSum_foldl]
  simp [countSum]

theorem mwSum_preAgg (f : Turbine → String) (ts : List Turbine) :
    mwSum (preAgg f ts) = capSum ts := by
  unfold preAgg
  rw [mwSum_foldl]
  simp [mwSum]

/-! ### Rounding error bounds -/

theorem abs_roundTo1_sub (q : ℚ) : |roundTo1 q - q| ≤ 1 / 20 := by
  have h₁ : ((⌊q * 10 + 1/2⌋ : ℤ) : ℚ) ≤ q * 10 + 1/2 := Int.floor_le _
  have h₂ : q * 10 + 1/2 - 1 < ((⌊q * 10 + 1/2⌋ : ℤ) : ℚ) :=
    Int.sub_one_lt_floor _
  rw [roundTo1, jsRound, abs_le]
  constructor
  · rw [le_sub_iff_add_le, le_div_iff₀ (by norm_num : (0:ℚ) < 10)]
    linarith
  · rw [sub_le_iff_le_add, div_le_iff₀ (by norm_num : (0:ℚ) < 10)]
    linarith

theorem abs_mwSum_roundPass_sub :
    ∀ m : HexMap, |mwSum (roundPass m) - mwSum m| ≤ (1 / 20) * m.length
  | [] => by simp [roundPass, mwSum]
  | p :: m => by
      have ih := abs_mwSum_roundPass_sub m
      have hr := abs_roundTo1_sub p.2.total_mw
      have hsplit : mwSum (roundPass (p :: m)) - mwSum (p :: m) =
          (roundTo1 p.2.total_mw - p.2.total_mw) +
            (mwSum (roundPass m) - mwSum m) := by
        simp [roundPass, mwSum]
        ring
      rw [hsplit]
      calc |(roundTo1 p.2.total_mw - p.2.total_mw) +
              (mwSum (roundPass m) - mwSum m)|
          ≤ |roundTo1 p.2.total_mw - p.2.total_mw| +
              |mwSum (roundPass m) - mwSum m| := abs_add _ _
        _ ≤ 1 / 20 + (1 / 20) * m.length := by linarith
        _ ≤ (1 / 20) * (p :: m).length := by
            simp [List.length_cons]
            ring_nf
            linarith

/-! ### Pointwise characterization of the aggregation map -/

theorem capSum_cons (t : Turbine) (ts : List Turbine) :
    capSum (t :: ts) = t.capacity_mw + capSum ts := by
  simp [capSum]

theorem lookup_foldl_of_some (f : Turbine → String) :
    ∀ (ts : List Turbine) {m : HexMap} {k : String} {d : HexData},
      lookupAssoc k m = some d →
      lookupAssoc k (ts.foldl (step f) m) =
        some ⟨d.total_mw + capSum (membersIn f k ts),
              d.turbine_count + (membersIn f k ts).length⟩
  | [], m, k, d, h => by simp [h, membersIn, capSum]
  | t :: ts, m, k, d, h => by
      simp only [List.foldl_cons]
      by_cases ht : f t = k
      · subst ht
        have hstep := lookup_step_self_some h
        rw [lookup_foldl_of_some f ts hstep]
        have hmem : membersIn f (f t) (t :: ts) = t :: membersIn f (f t) ts := by
          simp [membersIn]
        rw [hmem, capSum_cons, List.length_cons]
        simp only [Option.some.injEq, HexData.mk.injEq]
        constructor
        · ring
        · omega
      · have hstep : lookupAssoc k (step f m t) = some d := by
          rw [lookup_step_ne ht]; exact h
        rw [lookup_foldl_of_some f ts hstep]
        have hmem : membersIn f k (t :: ts) = membersIn f k ts := by
          simp [membersIn, ht]
        rw [hmem]

theorem lookup_foldl_of_none (f : Turbine → String) :
    ∀ (ts : List Turbine) {m : HexMap} {k : String},
      lookupAssoc k m = none →
      lookupAssoc k (ts.foldl (step f) m) =
        if membersIn f k ts = [] then none
        else some ⟨capSum (membersIn f k ts), (membersIn f k ts).length⟩
  | [], m, k, h => by simp [h, membersIn]
  | t :: ts, m, k, h => by
      simp only [List.foldl_cons]
      by_cases ht : f t = k
      · subst ht
        have hstep := lookup_step_self_none h
        rw [lookup_foldl_of_some f ts hstep]
        have hmem : membersIn f (f t) (t :: ts) = t :: membersIn f (f t) ts := by
          simp [membersIn]
        rw [hmem, if_neg (List.cons_ne_nil t _), capSum_cons, List.length_cons]
        simp only [Option.some.injEq, HexData.mk.injEq]
        constructor
        · trivial
        · omega
      · have hstep : lookupAssoc k (step f m t) = none := by
          rw [lookup_step_ne ht]; exact h
        rw [lookup_foldl_of_none f ts hstep]
        have hmem : membersIn f k (t :: ts) = membersIn f k ts := by
          simp [membersIn, ht]
        rw [hmem]

theorem lookup_preAgg (f : Turbine → String) (ts : List Turbine) (k : String) :
    lookupAssoc k (preAgg f ts) =
      if membersIn f k ts = [] then none
      else some ⟨capSum (membersIn f k ts), (membersIn f k ts).length⟩ :=
  lookup_foldl_of_none f ts rfl

theorem lookup_roundPass (k : String) :
    ∀ m : HexMap,
      lookupAssoc k (roundPass m) =
        (lookupAssoc k m).map (fun d => ⟨roundTo1 d.total_mw, d.turbine_count⟩)
  | [] => rfl
  | (k₂, v) :: rest => by
      have ih := lookup_roundPass k rest
      by_cases h : k₂ = k
      · simp [roundPass, lookupAssoc, h]
      · simp only [roundPass, List.map_cons, lookupAssoc, h, if_false]
        exact ih

/-! ### Unique keys -/

theorem keysOf_updateAssoc (k : String) (g : HexData → HexData) :
    ∀ m : HexMap, keysOf (updateAssoc k g m) = keysOf m
  | [] => rfl
  | (k₂, v) :: rest => by
      by_cases h : k₂ = k
      · simp [updateAssoc, h, keysOf]
      · have ih := keysOf_updateAssoc k g rest
        simp only [updateAssoc, h, if_false, keysOf, List.map_cons] at ih ⊢
        rw [ih]

theorem lookup_eq_none_iff (k : String) :
    ∀ m : HexMap, lookupAssoc k m = none ↔ k ∉ keysOf m
  | [] => by simp [lookupAssoc, keysOf]
  | (k₂, v) :: rest => by
      by_cases h : k₂ = k
      · simp [lookupAssoc, keysOf, h]
      · simp [lookupAssoc, keysOf, h, Ne.symm h, lookup_eq_none_iff k rest]

theorem nodup_keys_step (f : Turbine → String) (t : Turbine) (m : HexMap)
    (h : (keysOf m).Nodup) : (keysOf (step f m t)).Nodup := by
  unfold step
  cases hl : lookupAssoc (f t) m with
  | some d => rw [keysOf_updateAssoc]; exact h
  | none =>
      have hk : f t ∉ keysOf m := (lookup_eq_none_iff _ m).mp hl
      have hkeys : keysOf (m ++ [(f t, ⟨t.capacity_mw, 1⟩)]) =
          keysOf m ++ [f t] := by
        simp [keysOf]
      rw [hkeys]
      simp [List.nodup_append, h, hk]

theorem nodup_keys_foldl (f : Turbine → String) :
    ∀ (ts : List Turbine) (m : HexMap), (keysOf m).Nodup →
      (keysOf (ts.foldl (step f) m)).Nodup
  | [], _, h => h
  | t :: ts, m, h => nodup_keys_foldl f ts (step f m t) (nodup_keys_step f t m h)

theorem nodup_keys_preAgg (f : Turbine → String) (ts : List Turbine) :
    (keysOf (preAgg f ts)).Nodup :=
  nodup_keys_foldl f ts [] (by simp [keysOf])

theorem lookup_of_mem {p : String × HexData} :
    ∀ {m : HexMap}, (keysOf m).Nodup → p ∈ m → lookupAssoc p.1 m = some p.2
  | [], _, hp => absurd hp (List.not_mem_nil p)
  | (k₂, v) :: rest, hn, hp => by
      simp only [keysOf, List.map_cons] at hn
      have hn₂ := List.nodup_cons.mp hn
      rcases List.mem_cons.mp hp with heq | hmem
      · rw [heq]
        simp [lookupAssoc]
      · by_cases h : k₂ = p.1
        · exact absurd (h ▸ List.mem_map_of_mem Prod.fst hmem) hn₂.1
        · simp only [lookupAssoc, h, if_false]
          exact lookup_of_mem hn₂.2 hmem

/-- Every entry of the pre-rounding aggregation map records exactly the
capacity sum and the member count of its cell's member points. -/
theorem mem_preAgg_eq (f : Turbine → String) (ts : List Turbine)
    {p : String × HexData} (hp : p ∈ preAgg f ts) :
    membersIn f p.1 ts ≠ [] ∧
      p.2 = ⟨capSum (membersIn f p.1 ts), (membersIn f p.1 ts).length⟩ := by
  have hl := lookup_of_mem (nodup_keys_preAgg f ts) hp
  rw [lookup_preAgg] at hl
  by_cases h : membersIn f p.1 ts = []
  · rw [if_pos h] at hl
    exact absurd hl (by simp)
  · rw [if_neg h] at hl
    exact ⟨h, (Option.some.inj hl).symm⟩

theorem mem_membersIn {f : Turbine → String} {k : String} :
    ∀ {ts : List Turbine} {t : Turbine}, t ∈ membersIn f k ts → t ∈ ts
  | [], t, h => absurd h (List.not_mem_nil t)
  | t₂ :: ts, t, h => by
      unfold membersIn at h
      by_cases h₂ : f t₂ = k
      · rw [if_pos h₂] at h
        rcases List.mem_cons.mp h with heq | hm
        · exact heq ▸ List.mem_cons_self t₂ ts
        · exact List.mem_cons_of_mem _ (mem_membersIn hm)
      · rw [if_neg h₂] at h
        exact List.mem_cons_of_mem _ (mem_membersIn h)

/-! ### Permutation invariance -/

theorem membersIn_perm (f : Turbine → String) (k : String)
    {ts₁ ts₂ : List Turbine} (h : ts₁.Perm ts₂) :
    (membersIn f k ts₁).Perm (membersIn f k ts₂) := by
  induction h with
  | nil => exact List.Perm.refl _
  | cons x h ih =>
      unfold membersIn
      by_cases hx : f x = k
      · rw [if_pos hx, if_pos hx]
        exact ih.cons x
      · rw [if_neg hx, if_neg hx]
        exact ih
  | swap x y l =>
      by_cases hx : f x = k
      · by_cases hy : f y = k
        · simp only [membersIn, hx, hy, if_pos]
          exact List.Perm.swap x y _
        · simp only [membersIn, hx, hy, if_pos, if_neg, not_false_iff]
          exact List.Perm.refl _
      · by_cases hy : f y = k
        · simp only [membersIn, hx, hy, if_pos, if_neg, not_false_iff]
          exact List.Perm.refl _
        · simp only [membersIn, hx, hy, if_neg, not_false_iff]
          exact List.Perm.refl _
  | trans h₁ h₂ ih₁ ih₂ => exact ih₁.trans ih₂

theorem capSum_perm {ts₁ ts₂ : List Turbine} (h : ts₁.Perm ts₂) :
    capSum ts₁ = capSum ts₂ :=
  List.Perm.sum_eq (h.map Turbine.capacity_mw)

/-! ### Remaining helper lemmas -/

theorem foldl_capacity :
    ∀ (ts : List Turbine) (a : ℚ),
      ts.foldl (fun s t => s + t.capacity_mw) a = a + capSum ts
  | [], a => by simp [capSum]
  | t :: ts, a => by
      simp only [List.foldl_cons]
      rw [foldl_capacity ts, capSum_cons]
      ring

theorem roundTo1_nonneg {q : ℚ} (h : 0 ≤ q) : 0 ≤ roundTo1 q := by
  unfold roundTo1 jsRound
  apply div_nonneg _ (by norm_num)
  have hz : (0 : ℤ) ≤ ⌊q * 10 + 1/2⌋ := Int.le_floor.mpr (by push_cast; linarith)
  exact_mod_cast hz

/-! ### Claim theorems -/

/-- Claim C1: for every finite sequence of point records and every
resolution, the sum of `turbine_count` over all aggregates in the
Aggregator's output equals the length of the input sequence — every
input point is counted in exactly one aggregate. -/
theorem aggregator_counts_each_point_once
    (latLngToCell : ℚ → ℚ → ℕ → String) (turbines : List Turbine)
    (resolution : ℕ) :
    countSum (generateH3Indices latLngToCell turbines resolution) =
      turbines.length := by
  unfold generateH3Indices
  rw [countSum_roundPass, countSum_preAgg]

/-- Claim C2: each aggregate of the pre-rounding map holds the exact sum
of its member points' capacities, `generateH3Indices` applies the
one-decimal rounding exactly once as a post-pass over that map, and so
the output capacities sum to the input capacity sum within
`0.05 × (number of aggregates)`. -/
theorem aggregate_capacity_exact_then_rounded_once
    (latLngToCell : ℚ → ℚ → ℕ → String) (turbines : List Turbine)
    (resolution : ℕ) :
    ((preAgg (fun t => latLngToCell t.lat t.lon resolution) turbines).all
        (fun p => decide (p.2 =
          ⟨capSum (membersIn (fun t => latLngToCell t.lat t.lon resolution)
              p.1 turbines),
            (membersIn (fun t => latLngToCell t.lat t.lon resolution)
              p.1 turbines).length⟩)) = true)
    ∧ generateH3Indices latLngToCell turbines resolution =
        roundPass
          (preAgg (fun t => latLngToCell t.lat t.lon resolution) turbines)
    ∧ |mwSum (generateH3Indices latLngToCell turbines resolution) -
          capSum turbines|
        ≤ (1 / 20) *
            (generateH3Indices latLngToCell turbines resolution).length := by
  refine ⟨?_, rfl, ?_⟩
  · rw [List.all_eq_true]
    intro p hp
    rw [decide_eq_true_eq]
    exact (mem_preAgg_eq _ turbines hp).2
  · have h₁ : mwSum (preAgg (fun t => latLngToCell t.lat t.lon resolution)
        turbines) = capSum turbines := mwSum_preAgg _ _
    have h₂ := abs_mwSum_roundPass_sub
      (preAgg (fun t => latLngToCell t.lat t.lon resolution) turbines)
    unfold generateH3Indices
    rw [h₁] at h₂
    rw [length_roundPass]
    exact h₂

/-- Claim C6: the Stats Reducer returns the point count together with
the capacity sum rounded to the nearest whole unit, yields `(0, 0)` on
the empty sequence, and on capacities `1.234`, `2.5`, `0.27` returns
count `3` and `totalMW 4`. -/
theorem getTotalStats_spec (turbines : List Turbine) :
    getTotalStats turbines = ⟨turbines.length, jsRound (capSum turbines)⟩
    ∧ getTotalStats [] = ⟨0, 0⟩
    ∧ getTotalStats
        [mkTurbine 52 13 (1234/1000), mkTurbine 52 14 (25/10),
          mkTurbine 52 15 (27/100)] = ⟨3, 4⟩ := by
  refine ⟨?_, ?_, ?_⟩
  · unfold getTotalStats
    rw [foldl_capacity, zero_add]
  · simp only [getTotalStats, List.length_nil, List.foldl_nil, jsRound,
      TotalStats.mk.injEq]
    norm_num
  · simp only [getTotalStats, jsRound, mkTurbine, List.foldl_cons,
      List.foldl_nil, List.length_cons, List.length_nil, TotalStats.mk.injEq]
    norm_num

/-- Claim C7: the empty input yields the empty mapping at every
resolution (no failure), and the maximum-capacity scan of the empty
mapping returns `0`. -/
theorem empty_input_empty_map_and_max_zero
    (latLngToCell : ℚ → ℚ → ℕ → String) (resolution : ℕ) :
    generateH3Indices latLngToCell [] resolution = [] ∧ getMaxMW [] = 0 :=
  ⟨rfl, rfl⟩

/-- Claim C8: aggregating the identical input twice at the same
resolution yields identical mappings, both as lists and
identifier-for-identifier. -/
theorem aggregation_two_runs_identical
    (latLngToCell : ℚ → ℚ → ℕ → String) (turbines : List Turbine)
    (resolution : ℕ) :
    generateH3Indices latLngToCell turbines resolution =
      generateH3Indices latLngToCell turbines resolution
    ∧ EquivHexMap (generateH3Indices latLngToCell turbines resolution)
        (generateH3Indices latLngToCell turbines resolution) :=
  ⟨rfl, fun _ => rfl⟩

theorem keysOf_roundPass (m : HexMap) : keysOf (roundPass m) = keysOf m := by
  simp only [keysOf, roundPass, List.map_map]
  rfl

theorem lookup_gen_perm
    (latLngToCell : ℚ → ℚ → ℕ → String) {ts₁ ts₂ : List Turbine}
    (resolution : ℕ) (h : ts₁.Perm ts₂) :
    EquivHexMap (generateH3Indices latLngToCell ts₁ resolution)
      (generateH3Indices latLngToCell ts₂ resolution) := by
  intro k
  unfold generateH3Indices
  rw [lookup_roundPass, lookup_roundPass, lookup_preAgg, lookup_preAgg]
  have hperm :=
    membersIn_perm (fun t => latLngToCell t.lat t.lon resolution) k h
  by_cases h₁ :
      membersIn (fun t => latLngToCell t.lat t.lon resolution) k ts₁ = []
  · have h₂ :
        membersIn (fun t => latLngToCell t.lat t.lon resolution) k ts₂ = [] := by
      rw [h₁] at hperm
      exact hperm.symm.eq_nil
    rw [if_pos h₁, if_pos h₂]
  · have h₂ :
        membersIn (fun t => latLngToCell t.lat t.lon resolution) k ts₂ ≠ [] := by
      intro hnil
      apply h₁
      rw [hnil] at hperm
      exact hperm.eq_nil
    rw [if_neg h₁, if_neg h₂, capSum_perm hperm, hperm.length_eq]

/-- Claim C3: aggregating two orderings of the same points at the same
resolution yields the same final mapping — the same set of cell
identifiers and, identifier for identifier, the same total capacity and
member count. -/
theorem aggregation_order_invariant
    (latLngToCell : ℚ → ℚ → ℕ → String) {ts₁ ts₂ : List Turbine}
    (resolution : ℕ) (h : ts₁.Perm ts₂) :
    (keysOf (generateH3Indices latLngToCell ts₁ resolution)).Perm
      (keysOf (generateH3Indices latLngToCell ts₂ resolution))
    ∧ EquivHexMap (generateH3Indices latLngToCell ts₁ resolution)
        (generateH3Indices latLngToCell ts₂ resolution) := by
  have hequiv := lookup_gen_perm latLngToCell resolution h
  refine ⟨?_, hequiv⟩
  have d₁ : (keysOf (generateH3Indices latLngToCell ts₁ resolution)).Nodup := by
    unfold generateH3Indices
    rw [keysOf_roundPass]
    exact nodup_keys_preAgg _ _
  have d₂ : (keysOf (generateH3Indices latLngToCell ts₂ resolution)).Nodup := by
    unfold generateH3Indices
    rw [keysOf_roundPass]
    exact nodup_keys_preAgg _ _
  refine (List.perm_ext_iff_of_nodup d₁ d₂).mpr (fun a => ?_)
  rw [← not_iff_not, ← lookup_eq_none_iff, ← lookup_eq_none_iff, hequiv a]

/-- Two-point sequence used as the concrete reordering witness. -/
def tsPermA : List Turbine := [mkTurbine 52 13 3, mkTurbine (-10) 5 (1/2)]

/-- `tsPermA` in the opposite order. -/
def tsPermB : List Turbine := [mkTurbine (-10) 5 (1/2), mkTurbine 52 13 3]

/-- Witness for claim C3 at a concrete permutation pair. -/
theorem aggregation_order_invariant_witness :
    (keysOf (generateH3Indices cellEx tsPermA 3)).Perm
      (keysOf (generateH3Indices cellEx tsPermB 3))
    ∧ EquivHexMap (generateH3Indices cellEx tsPermA 3)
        (generateH3Indices cellEx tsPermB 3) :=
  aggregation_order_invariant cellEx 3 (List.Perm.swap _ _ _)

/-- Claim C9: when all input capacities are positive, every aggregate
in the output mapping has total capacity `≥ 0` and member count `≥ 1`. -/
theorem aggregate_invariant_holds
    (latLngToCell : ℚ → ℚ → ℕ → String) (turbines : List Turbine)
    (resolution : ℕ) (hpos : ∀ t ∈ turbines, 0 < t.capacity_mw) :
    (generateH3Indices latLngToCell turbines resolution).all
      (fun p => decide (0 ≤ p.2.total_mw ∧ 1 ≤ p.2.turbine_count)) = true := by
  rw [List.all_eq_true]
  intro p hp
  rw [decide_eq_true_eq]
  unfold generateH3Indices roundPass at hp
  rcases List.mem_map.mp hp with ⟨q, hq, rfl⟩
  have h := mem_preAgg_eq _ turbines hq
  constructor
  · show 0 ≤ roundTo1 q.2.total_mw
    apply roundTo1_nonneg
    rw [h.2]
    show 0 ≤ capSum (membersIn _ q.1 turbines)
    unfold capSum
    apply List.sum_nonneg
    intro x hx
    rcases List.mem_map.mp hx with ⟨t, ht, rfl⟩
    exact le_of_lt (hpos t (mem_membersIn ht))
  · show 1 ≤ q.2.turbine_count
    rw [h.2]
    show 1 ≤ (membersIn _ q.1 turbines).length
    exact List.length_pos.mpr h.1

/-- Three positive-capacity points used as the concrete witness input. -/
def tsPos : List Turbine :=
  [mkTurbine 52 13 3, mkTurbine 52 13 (1/2), mkTurbine (-10) 5 2]

/-- Witness for claim C9 at a concrete positive-capacity input. -/
theorem aggregate_invariant_holds_witness :
    (generateH3Indices cellEx tsPos 4).all
      (fun p => decide (0 ≤ p.2.total_mw ∧ 1 ≤ p.2.turbine_count)) = true :=
  aggregate_invariant_holds cellEx tsPos 4 (by
    intro t ht
    simp only [tsPos, List.mem_cons, List.not_mem_nil, or_false] at ht
    rcases ht with rfl | rfl | rfl <;> norm_num [mkTurbine])

/-! ### Geometry lemmas -/

/-- The ring of every emitted feature is the axis-swapped boundary with
the first swapped vertex appended. -/
theorem ring_of_mem (cellToBoundary : String → List (ℚ × ℚ)) (m : HexMap)
    {g : GeoFeature} (hg : g ∈ h3ToGeoJSON cellToBoundary m) :
    g.ring = ((cellToBoundary g.h3Index).map (fun v => (v.2, v.1))) ++
      [((cellToBoundary g.h3Index).map (fun v => (v.2, v.1))).headD (0, 0)] := by
  unfold h3ToGeoJSON at hg
  rcases List.mem_map.mp hg with ⟨p, _, rfl⟩
  rfl

theorem closed_head_eq_getLast (l : List (ℚ × ℚ)) :
    (l ++ [l.headD (0, 0)]).head? = (l ++ [l.headD (0, 0)]).getLast? := by
  cases l with
  | nil => rfl
  | cons x xs =>
      rw [List.getLast?_concat]
      rfl

/-- Claim C4: every polygon emitted by the Geometry Materializer has a
closed boundary ring — a nonempty ring whose first and last coordinate
pair are identical. -/
theorem polygons_closed (cellToBoundary : String → List (ℚ × ℚ))
    (hexMap : HexMap) :
    (h3ToGeoJSON cellToBoundary hexMap).all
      (fun g => decide (g.ring ≠ [] ∧ g.ring.head? = g.ring.getLast?)) =
      true := by
  rw [List.all_eq_true]
  intro g hg
  rw [decide_eq_true_eq]
  rw [ring_of_mem cellToBoundary hexMap hg]
  exact ⟨by simp, closed_head_eq_getLast _⟩

/-- Claim C5: every vertex of every emitted polygon is the
`(longitude, latitude)` component swap of the corresponding
`(latitude, longitude)` vertex of the raw cell boundary: the ring's
first `n` vertices are exactly the swapped boundary vertices. -/
theorem polygons_axis_swapped (cellToBoundary : String → List (ℚ × ℚ))
    (hexMap : HexMap) :
    (h3ToGeoJSON cellToBoundary hexMap).all
      (fun g => decide (g.ring.take (cellToBoundary g.h3Index).length =
        (cellToBoundary g.h3Index).map (fun v => (v.2, v.1)))) = true := by
  rw [List.all_eq_true]
  intro g hg
  rw [decide_eq_true_eq]
  rw [ring_of_mem cellToBoundary hexMap hg]
  have hlen : (cellToBoundary g.h3Index).length =
      ((cellToBoundary g.h3Index).map (fun v => (v.2, v.1))).length := by
    rw [List.length_map]
  rw [hlen, List.take_left]

/-- Claim C10: the Geometry Materializer closes each polygon by
unconditionally appending the first vertex — an `n`-vertex boundary
yields an `n + 1`-vertex ring whose last vertex repeats the first
swapped vertex, with no deduplication. -/
theorem polygons_append_first_vertex (cellToBoundary : String → List (ℚ × ℚ))
    (hexMap : HexMap) :
    (h3ToGeoJSON cellToBoundary hexMap).all
      (fun g => decide (g.ring.length = (cellToBoundary g.h3Index).length + 1
        ∧ g.ring.getLast? =
          some (((cellToBoundary g.h3Index).map
            (fun v => (v.2, v.1))).headD (0, 0)))) = true := by
  rw [List.all_eq_true]
  intro g hg
  rw [decide_eq_true_eq]
  rw [ring_of_mem cellToBoundary hexMap hg]
  constructor
  · rw [List.length_append, List.length_map]
    rfl
  · rw [List.getLast?_concat]

end HexWind
